import Mathlib

/-!
Verification of the comparative-analysis core of the CompanyInsightAI
repository: the topic classifier `extract_topics` (src/utils.py lines
194-220) and the analysis engine `comparative_analysis` (src/utils.py lines
222-317), embedded shallowly in Lean.

Modelling conventions:
- a Python article dict is a record of optional fields (a missing key is
  `none`); `dict.get(k, d)` is `Option.getD`;
- a Python dict used as a counter is an insertion-ordered association list
  (`setKey` updates in place or appends, as CPython dicts do);
- a Python `set` is an insertion-ordered duplicate-free list (`insertNew`
  adds an element only when absent); all claims about sets are stated
  through membership, so the ordering chosen for the model carries no
  content;
- `str.lower()` is `pyLower` (ASCII case folding, which is exact for the
  ASCII texts the keyword table contains), and the substring test
  `needle in hay` is `strIn`.
-/

namespace CompanyInsight

/-- ASCII lower-casing of one character, as Python `str.lower` acts on the
ASCII range: code points 65..90 are shifted by 32, all else unchanged. -/
def lowerChar (c : Char) : Char :=
  if 65 ≤ c.toNat ∧ c.toNat ≤ 90 then Char.ofNat (c.toNat + 32) else c

/-- `text.lower()` of the Python source, character by character. -/
def pyLower (s : String) : String :=
  String.mk (s.data.map lowerChar)

/-- Does `needle` occur at the very front of `hay`? -/
def headMatches : List Char → List Char → Bool
  | [], _ => true
  | _ :: _, [] => false
  | c :: cs, h :: hs => c == h && headMatches cs hs

/-- Does `needle` occur contiguously anywhere in `hay`? -/
def containsSub (needle : List Char) : List Char → Bool
  | [] => needle.isEmpty
  | h :: hs => headMatches needle (h :: hs) || containsSub needle hs

/-- Python substring containment `needle in hay`. -/
def strIn (needle hay : String) : Bool :=
  containsSub needle.data hay.data

/-- The fixed keyword table of `extract_topics` (src/utils.py lines
196-207), in source order. -/
def topic_keywords : List (String × List String) :=
  [("Finance", ["finance", "market", "stock", "invest", "financial", "economy", "economic",
                "shares", "investors", "trading", "profit", "revenue", "earnings"]),
   ("Technology", ["tech", "technology", "digital", "software", "hardware", "app", "device",
                   "innovation", "platform", "product", "AI", "artificial intelligence"]),
   ("Automotive", ["vehicle", "car", "automotive", "drive", "driving", "EV", "electric vehicle",
                   "autonomous", "self-driving", "model", "battery", "charging"]),
   ("Regulation", ["regulation", "regulatory", "compliance", "legal", "law", "lawsuit",
                   "litigation", "court", "ruling", "guideline", "policy", "policies"]),
   ("Environment", ["environment", "environmental", "climate", "green", "sustainable",
                    "sustainability", "carbon", "emission", "renewable", "clean energy"])]

/-- `extract_topics` (src/utils.py lines 194-220): lower-case the text,
keep every topic one of whose keywords occurs in it, and fall back to
`["General"]` when none does. -/
def extract_topics (text : String) : List String :=
  let text_lower := pyLower text
  let found_topics :=
    (topic_keywords.filter (fun p => p.2.any (fun kw => strIn kw text_lower))).map Prod.fst
  if found_topics = [] then ["General"] else found_topics

/-- An article record as built by `scrape_google_news` and consumed by
`comparative_analysis`; every field is optional because the Python dict
may lack any key. -/
structure Article where
  title : Option String
  summary : Option String
  source : Option String
  link : Option String
  date : Option String
  sentiment : Option String
  topics : Option (List String)
deriving DecidableEq

/-- `article.get('sentiment', 'Unknown')` (src/utils.py line 239). -/
def getSentiment (a : Article) : String :=
  a.sentiment.getD "Unknown"

/-- `f"{title} {summary}"` with `article.get('title', '')` and
`article.get('summary', '')` (src/utils.py lines 248-250). -/
def combinedText (a : Article) : String :=
  a.title.getD "" ++ " " ++ a.summary.getD ""

/-- `article['topics'] = topics` (src/utils.py line 253): the input record
with its topics field overwritten, all other fields untouched. -/
def setTopics (a : Article) (ts : List String) : Article :=
  ⟨a.title, a.summary, a.source, a.link, a.date, a.sentiment, some ts⟩

/-- `dict.get(k, d)` on an insertion-ordered association list. -/
def lookupD : List (String × Nat) → String → Nat → Nat
  | [], _, d => d
  | (k', v') :: rest, k, d => if k' = k then v' else lookupD rest k d

/-- `dict[k] = v`: replace the value in place when the key exists,
append otherwise (CPython dicts keep insertion order). -/
def setKey : List (String × Nat) → String → Nat → List (String × Nat)
  | [], k, v => [(k, v)]
  | (k', v') :: rest, k, v =>
      if k' = k then (k, v) :: rest else (k', v') :: setKey rest k v

/-- Association-list lookup returning `none` for a missing key. -/
def lookupPairs : List (String × Nat) → String → Option Nat
  | [], _ => none
  | (k', v') :: rest, k => if k' = k then some v' else lookupPairs rest k

/-- The sentiment tally loop (src/utils.py lines 237-240):
`sentiment_counts[s] = sentiment_counts.get(s, 0) + 1` per article. -/
def tally (m : List (String × Nat)) : List Article → List (String × Nat)
  | [] => m
  | a :: rest =>
      let s := getSentiment a
      tally (setKey m s (lookupD m s 0 + 1)) rest

/-- `set.add`: append the element only when it is not yet present. -/
def insertNew (s : List String) (x : String) : List String :=
  if x ∈ s then s else s ++ [x]

/-- `set.update(xs)`: add each element of `xs` in turn. -/
def unionUpd (s : List String) (xs : List String) : List String :=
  xs.foldl insertNew s

/-- `max(counts, key=counts.get)` (src/utils.py line 308): the first key of
maximal value in iteration (= insertion) order; Python `max` raises on an
empty dict, which the source guards against, so the `[]` case is arbitrary. -/
def maxByValue : List (String × Nat) → String
  | [] => ""
  | p :: rest => (rest.foldl (fun best q => if best.2 < q.2 then q else best) p).1

/-- A coverage-difference entry `{"comparison": ..., "impact": ...}`
(src/utils.py lines 300-313). -/
structure Comparison where
  comparison : String
  impact : String
deriving DecidableEq

/-- The value stored under `"topic_overlap"`: the literal empty dict `{}`
of the degenerate branch (src/utils.py line 226), or the three-key dict
`topic_analysis` (src/utils.py lines 263-267). -/
inductive TopicOverlapVal where
  | emptyDict : TopicOverlapVal
  | record (common_topics : List String) (all_topics : List String)
      (topic_frequency : List (String × Nat)) : TopicOverlapVal
deriving DecidableEq

/-- The `analysis` dict returned by `comparative_analysis`. -/
structure Analysis where
  sentiment_distribution : List (String × Nat)
  topic_overlap : TopicOverlapVal
  coverage_differences : List Comparison
deriving DecidableEq

/-- The per-article mutation of the topic loop (src/utils.py lines
248-253): recompute the topics from title and summary and store them on
the record. -/
def mutTopics (a : Article) : Article :=
  setTopics a (extract_topics (combinedText a))

/-- `sentiment_counts` (src/utils.py lines 237-240). -/
def sentimentCountsOf (articles : List Article) : List (String × Nat) :=
  tally [] articles

/-- The article list after the topic loop has run (src/utils.py lines
247-253): every record's topics field has been overwritten. -/
def articles2Of (articles : List Article) : List Article :=
  articles.map mutTopics

/-- `article_topics` (src/utils.py lines 245-254). -/
def articleTopicsOf (articles : List Article) : List (List String) :=
  (articles2Of articles).map (fun a => a.topics.getD [])

/-- `all_topics` (src/utils.py lines 244-255): the running set union. -/
def allTopicsOf (articles : List Article) : List String :=
  (articleTopicsOf articles).foldl unionUpd []

/-- `common_topics` (src/utils.py lines 258-260): start from `all_topics`
and intersect with each article's topic list. -/
def commonTopicsOf (articles : List Article) : List String :=
  (articleTopicsOf articles).foldl
    (fun c ts => c.filter (fun t => decide (t ∈ ts))) (allTopicsOf articles)

/-- `topic_frequency` (src/utils.py lines 270-272). -/
def topicFrequencyOf (articles : List Article) : List (String × Nat) :=
  (allTopicsOf articles).map
    (fun t => (t, ((articleTopicsOf articles).filter (fun ts => decide (t ∈ ts))).length))

/-- `sentiments = set(article.get('sentiment', 'Unknown') for article in
articles)` (src/utils.py line 279). -/
def sentimentsOf (articles : List Article) : List String :=
  articles.foldl (fun s a => insertNew s (getSentiment a)) []

/-- `pos_articles` (src/utils.py line 281), filtered from the mutated list. -/
def posArticlesOf (articles : List Article) : List Article :=
  (articles2Of articles).filter (fun a => decide (a.sentiment = some "Positive"))

/-- `neg_articles` (src/utils.py line 282). -/
def negArticlesOf (articles : List Article) : List Article :=
  (articles2Of articles).filter (fun a => decide (a.sentiment = some "Negative"))

/-- `pos_topics` (src/utils.py lines 289-291). -/
def posTopicsOf (articles : List Article) : List String :=
  (posArticlesOf articles).foldl (fun s a => unionUpd s (a.topics.getD [])) []

/-- `neg_topics` (src/utils.py lines 293-295). -/
def negTopicsOf (articles : List Article) : List String :=
  (negArticlesOf articles).foldl (fun s a => unionUpd s (a.topics.getD [])) []

/-- `pos_unique = pos_topics - neg_topics` (src/utils.py line 297). -/
def posUniqueOf (articles : List Article) : List String :=
  (posTopicsOf articles).filter (fun t => decide (t ∉ negTopicsOf articles))

/-- `neg_unique = neg_topics - pos_topics` (src/utils.py line 298). -/
def negUniqueOf (articles : List Article) : List String :=
  (negTopicsOf articles).filter (fun t => decide (t ∉ posTopicsOf articles))

/-- The Positive-versus-Negative contrast entry (src/utils.py lines
288-304), emitted only when both subsets are non-empty. -/
def contrastComparisons (articles : List Article) : List Comparison :=
  if posArticlesOf articles ≠ [] ∧ negArticlesOf articles ≠ [] then
    [⟨"Positive articles focus on " ++
        (if posUniqueOf articles = [] then "various topics"
         else String.intercalate ", " (posUniqueOf articles)) ++
      ", while negative articles focus on " ++
        (if negUniqueOf articles = [] then "various topics"
         else String.intercalate ", " (negUniqueOf articles)) ++ ".",
      "This contrast shows different aspects of the company\x27s public perception."⟩]
  else []

/-- The dominant-sentiment entry (src/utils.py lines 307-313), emitted
whenever the tally is non-empty. -/
def trendComparisons (articles : List Article) : List Comparison :=
  if sentimentCountsOf articles = [] then []
  else
    let max_sentiment := maxByValue (sentimentCountsOf articles)
    [⟨"Overall coverage is predominantly " ++ pyLower max_sentiment ++ ".",
      "The " ++ pyLower max_sentiment ++ " sentiment suggests " ++
        (if max_sentiment = "Positive" then "a positive public perception"
         else if max_sentiment = "Negative" then "a negative public perception"
         else "a balanced public perception") ++ "."⟩]

/-- `coverage_differences` (src/utils.py lines 276-315): empty unless
there are at least two articles and at least two distinct sentiment
labels. -/
def coverageDifferencesOf (articles : List Article) : List Comparison :=
  if 2 ≤ articles.length then
    if 2 ≤ (sentimentsOf articles).length then
      contrastComparisons articles ++ trendComparisons articles
    else []
  else []

/-- `comparative_analysis` (src/utils.py lines 222-317). The second
component of the result is the article list as the function leaves it:
the Python code mutates each input dict's `topics` key in place, which
the embedding renders as explicit state passing. -/
def comparative_analysis (articles : List Article) : Analysis × List Article :=
  if articles = [] then
    (⟨[], TopicOverlapVal.emptyDict, []⟩, articles)
  else
    (⟨sentimentCountsOf articles,
      TopicOverlapVal.record (commonTopicsOf articles) (allTopicsOf articles)
        (topicFrequencyOf articles),
      coverageDifferencesOf articles⟩,
     articles2Of articles)

/-- Concrete articles used by witnesses and counterexamples. -/
def artPosStock : Article :=
  ⟨some "stock", none, none, none, none, some "Positive", none⟩

def artNegCar : Article :=
  ⟨some "car", none, none, none, none, some "Negative", none⟩

def artBare : Article :=
  ⟨none, none, none, none, none, none, none⟩

/-! ### Character-level lemmas -/

theorem toNat_ofNat_valid {n : Nat} (h : n.isValidChar) : (Char.ofNat n).toNat = n := by
  unfold Char.ofNat
  rw [dif_pos h]
  rfl

theorem lowerChar_ne_upper (c d : Char) (h65 : 65 ≤ d.toNat) (h90 : d.toNat ≤ 90) :
    lowerChar c ≠ d := by
  unfold lowerChar
  split
  · rename_i h
    intro heq
    have hv : (c.toNat + 32).isValidChar := Or.inl (by omega)
    have := congrArg Char.toNat heq
    rw [toNat_ofNat_valid hv] at this
    omega
  · rename_i h
    intro heq
    cases heq
    exact h ⟨h65, h90⟩

theorem lowerChar_whitespace {c : Char} (h : c.isWhitespace = true) : lowerChar c = c := by
  have hc := h
  simp only [Char.isWhitespace, Bool.or_eq_true, decide_eq_true_eq] at hc
  rcases hc with ((h1 | h1) | h1) | h1 <;> (cases h1; decide)

/-! ### Substring lemmas -/

theorem headMatches_subset {needle hay : List Char} (h : headMatches needle hay = true) :
    ∀ c ∈ needle, c ∈ hay := by
  induction needle generalizing hay with
  | nil => intro c hc; cases hc
  | cons x xs ih =>
    cases hay with
    | nil => cases h
    | cons y ys =>
      unfold headMatches at h
      have h1 : x = y := by
        have := (Bool.and_eq_true _ _).mp h
        exact eq_of_beq this.1
      have h2 := ((Bool.and_eq_true _ _).mp h).2
      intro c hc
      cases hc with
      | head => exact h1 ▸ List.mem_cons_self _ _
      | tail _ hm => exact List.mem_cons_of_mem _ (ih h2 c hm)

theorem containsSub_subset {needle hay : List Char} (h : containsSub needle hay = true) :
    ∀ c ∈ needle, c ∈ hay := by
  induction hay with
  | nil =>
    unfold containsSub at h
    have : needle = [] := by simpa [List.isEmpty_iff] using h
    subst this
    intro c hc; cases hc
  | cons y ys ih =>
    unfold containsSub at h
    rcases (Bool.or_eq_true _ _).mp h with h1 | h2
    · exact headMatches_subset h1
    · intro c hc
      exact List.mem_cons_of_mem _ (ih h2 c hc)

theorem strIn_upper_false (needle s : String) (d : Char) (hd : d ∈ needle.data)
    (h65 : 65 ≤ d.toNat) (h90 : d.toNat ≤ 90) : strIn needle (pyLower s) = false := by
  cases hb : strIn needle (pyLower s) with
  | false => rfl
  | true =>
    exfalso
    have hmem : d ∈ (pyLower s).data := containsSub_subset hb d hd
    have hmem2 : d ∈ s.data.map lowerChar := hmem
    rcases List.mem_map.mp hmem2 with ⟨c, _, hc⟩
    exact lowerChar_ne_upper c d h65 h90 hc

theorem strIn_whitespace_false (needle s : String)
    (hs : ∀ c ∈ s.data, c.isWhitespace = true)
    (hn : ∃ c ∈ needle.data, ¬ c.isWhitespace = true) :
    strIn needle (pyLower s) = false := by
  cases hb : strIn needle (pyLower s) with
  | false => rfl
  | true =>
    exfalso
    rcases hn with ⟨c, hcn, hcw⟩
    have hmem : c ∈ (pyLower s).data := containsSub_subset hb c hcn
    have hmem2 : c ∈ s.data.map lowerChar := hmem
    rcases List.mem_map.mp hmem2 with ⟨c0, hc0, hc⟩
    have hw := hs c0 hc0
    rw [lowerChar_whitespace hw] at hc
    exact hcw (hc ▸ hw)

/-- The label produced by the fallback branch is not a key of the keyword
table, so a non-fallback result never equals `["General"]`. -/
theorem general_not_key : "General" ∉ topic_keywords.map Prod.fst := by decide

/-- Unfolding equation for `extract_topics` with its local bindings
substituted away. -/
theorem extract_topics_eq (text : String) :
    extract_topics text =
      if (topic_keywords.filter
            (fun p => p.2.any (fun kw => strIn kw (pyLower text)))).map Prod.fst = []
      then ["General"]
      else (topic_keywords.filter
            (fun p => p.2.any (fun kw => strIn kw (pyLower text)))).map Prod.fst := rfl

/-- Every keyword of the table contains a non-whitespace character. -/
theorem keywords_not_whitespace :
    ∀ p ∈ topic_keywords, ∀ kw ∈ p.2, ∃ c ∈ kw.data, ¬ c.isWhitespace = true := by decide

/-! ### Set-model lemmas: `insertNew`, `unionUpd` and their folds -/

theorem mem_insertNew {s : List String} {x y : String} :
    x ∈ insertNew s y ↔ x ∈ s ∨ x = y := by
  unfold insertNew
  split
  · rename_i h
    constructor
    · exact Or.inl
    · rintro (hx | rfl)
      · exact hx
      · exact h
  · simp

theorem nodup_insertNew {s : List String} (h : s.Nodup) (y : String) :
    (insertNew s y).Nodup := by
  unfold insertNew
  split
  · exact h
  · rename_i hy
    simpa [List.nodup_append, h] using hy

theorem mem_unionUpd {x : String} {ts : List String} :
    ∀ {s : List String}, x ∈ unionUpd s ts ↔ x ∈ s ∨ x ∈ ts := by
  induction ts with
  | nil => intro s; simp [unionUpd]
  | cons y ys ih =>
    intro s
    show x ∈ unionUpd (insertNew s y) ys ↔ _
    rw [ih, mem_insertNew]
    constructor
    · rintro ((hx | rfl) | hx)
      · exact Or.inl hx
      · exact Or.inr (List.mem_cons_self _ _)
      · exact Or.inr (List.mem_cons_of_mem _ hx)
    · rintro (hx | hx)
      · exact Or.inl (Or.inl hx)
      · rcases List.mem_cons.mp hx with rfl | hx
        · exact Or.inl (Or.inr rfl)
        · exact Or.inr hx

theorem nodup_unionUpd {ts : List String} :
    ∀ {s : List String}, s.Nodup → (unionUpd s ts).Nodup := by
  induction ts with
  | nil => intro s h; exact h
  | cons y ys ih =>
    intro s h
    exact ih (nodup_insertNew h y)

theorem mem_foldl_unionUpd {x : String} {L : List (List String)} :
    ∀ {s : List String}, x ∈ L.foldl unionUpd s ↔ x ∈ s ∨ ∃ ts ∈ L, x ∈ ts := by
  induction L with
  | nil => intro s; simp
  | cons ts L ih =>
    intro s
    show x ∈ L.foldl unionUpd (unionUpd s ts) ↔ _
    rw [ih, mem_unionUpd]
    constructor
    · rintro ((hx | hx) | ⟨u, hu, hx⟩)
      · exact Or.inl hx
      · exact Or.inr ⟨ts, List.mem_cons_self _ _, hx⟩
      · exact Or.inr ⟨u, List.mem_cons_of_mem _ hu, hx⟩
    · rintro (hx | ⟨u, hu, hx⟩)
      · exact Or.inl (Or.inl hx)
      · rcases List.mem_cons.mp hu with rfl | hu
        · exact Or.inl (Or.inr hx)
        · exact Or.inr ⟨u, hu, hx⟩

theorem nodup_foldl_unionUpd {L : List (List String)} :
    ∀ {s : List String}, s.Nodup → (L.foldl unionUpd s).Nodup := by
  induction L with
  | nil => intro s h; exact h
  | cons ts L ih => intro s h; exact ih (nodup_unionUpd h)

theorem mem_foldl_unionUpd_map {α : Type} (f : α → List String) {x : String} {l : List α} :
    ∀ {s : List String},
      x ∈ l.foldl (fun s a => unionUpd s (f a)) s ↔ x ∈ s ∨ ∃ a ∈ l, x ∈ f a := by
  induction l with
  | nil => intro s; simp
  | cons a l ih =>
    intro s
    show x ∈ l.foldl _ (unionUpd s (f a)) ↔ _
    rw [ih, mem_unionUpd]
    constructor
    · rintro ((hx | hx) | ⟨b, hb, hx⟩)
      · exact Or.inl hx
      · exact Or.inr ⟨a, List.mem_cons_self _ _, hx⟩
      · exact Or.inr ⟨b, List.mem_cons_of_mem _ hb, hx⟩
    · rintro (hx | ⟨b, hb, hx⟩)
      · exact Or.inl (Or.inl hx)
      · rcases List.mem_cons.mp hb with rfl | hb
        · exact Or.inl (Or.inr hx)
        · exact Or.inr ⟨b, hb, hx⟩

theorem mem_foldl_insertNew (g : Article → String) {x : String} {l : List Article} :
    ∀ {s : List String},
      x ∈ l.foldl (fun s a => insertNew s (g a)) s ↔ x ∈ s ∨ ∃ a ∈ l, g a = x := by
  induction l with
  | nil => intro s; simp
  | cons a l ih =>
    intro s
    show x ∈ l.foldl _ (insertNew s (g a)) ↔ _
    rw [ih, mem_insertNew]
    constructor
    · rintro ((hx | rfl) | ⟨b, hb, hx⟩)
      · exact Or.inl hx
      · exact Or.inr ⟨a, List.mem_cons_self _ _, rfl⟩
      · exact Or.inr ⟨b, List.mem_cons_of_mem _ hb, hx⟩
    · rintro (hx | ⟨b, hb, hx⟩)
      · exact Or.inl (Or.inl hx)
      · rcases List.mem_cons.mp hb with rfl | hb
        · exact Or.inl (Or.inr hx.symm)
        · exact Or.inr ⟨b, hb, hx⟩

theorem nodup_foldl_insertNew (g : Article → String) {l : List Article} :
    ∀ {s : List String}, s.Nodup → (l.foldl (fun s a => insertNew s (g a)) s).Nodup := by
  induction l with
  | nil => intro s h; exact h
  | cons a l ih => intro s h; exact ih (nodup_insertNew h (g a))

theorem mem_foldl_interFilter {x : String} {L : List (List String)} :
    ∀ {c : List String},
      x ∈ L.foldl (fun c ts => c.filter (fun t => decide (t ∈ ts))) c ↔
        x ∈ c ∧ ∀ ts ∈ L, x ∈ ts := by
  induction L with
  | nil => intro c; simp
  | cons ts L ih =>
    intro c
    show x ∈ L.foldl _ (c.filter (fun t => decide (t ∈ ts))) ↔ _
    rw [ih]
    simp only [List.mem_filter, decide_eq_true_eq, List.mem_cons]
    constructor
    · rintro ⟨⟨hc, hts⟩, hall⟩
      refine ⟨hc, ?_⟩
      rintro u (rfl | hu)
      · exact hts
      · exact hall u hu
    · rintro ⟨hc, hall⟩
      exact ⟨⟨hc, hall ts (Or.inl rfl)⟩, fun u hu => hall u (Or.inr hu)⟩

/-! ### Small cardinality lemmas -/

theorem two_le_length_of_two_mem {α : Type} {l : List α} {x y : α}
    (hx : x ∈ l) (hy : y ∈ l) (hxy : x ≠ y) : 2 ≤ l.length := by
  match l with
  | [] => cases hx
  | [a] =>
    rcases List.mem_singleton.mp hx with rfl
    rcases List.mem_singleton.mp hy with rfl
    exact absurd rfl hxy
  | a :: b :: l => simp [Nat.succ_le_succ, Nat.le_add_left]

theorem exists_two_of_nodup_two_le {l : List String} (hn : l.Nodup)
    (hl : 2 ≤ l.length) : ∃ x ∈ l, ∃ y ∈ l, x ≠ y := by
  match l, hn, hl with
  | a :: b :: l, hn, _ =>
    refine ⟨a, List.mem_cons_self _ _, b, List.mem_cons_of_mem _ (List.mem_cons_self _ _), ?_⟩
    intro hab
    have := List.nodup_cons.mp hn
    exact this.1 (hab ▸ List.mem_cons_self _ _)

/-! ### Dictionary lemmas: `lookupD`, `setKey`, `tally` -/

theorem lookupD_setKey_self (m : List (String × Nat)) (k : String) (v : Nat) :
    lookupD (setKey m k v) k 0 = v := by
  induction m with
  | nil => simp [setKey, lookupD]
  | cons p rest ih =>
    obtain ⟨k', v'⟩ := p
    by_cases h : k' = k
    · subst h
      simp [setKey, lookupD]
    · simp only [setKey, if_neg h, lookupD]
      exact ih

theorem lookupD_setKey_ne (m : List (String × Nat)) {k k' : String} (v : Nat)
    (h : k' ≠ k) : lookupD (setKey m k' v) k 0 = lookupD m k 0 := by
  induction m with
  | nil => simp [setKey, lookupD, h]
  | cons p rest ih =>
    obtain ⟨k0, v0⟩ := p
    by_cases h0 : k0 = k'
    · subst h0
      simp [setKey, lookupD, h]
    · simp only [setKey, if_neg h0, lookupD]
      by_cases h1 : k0 = k
      · rw [if_pos h1, if_pos h1]
      · rw [if_neg h1, if_neg h1]
        exact ih

theorem mem_setKey {k : String} {v : Nat} {p : String × Nat} :
    ∀ {m : List (String × Nat)}, p ∈ setKey m k v → p = (k, v) ∨ p ∈ m := by
  intro m
  induction m with
  | nil => intro h; simpa [setKey] using h
  | cons q rest ih =>
    obtain ⟨k0, v0⟩ := q
    intro h
    simp only [setKey] at h
    split at h
    · rcases List.mem_cons.mp h with h1 | h1
      · exact Or.inl h1
      · exact Or.inr (List.mem_cons_of_mem _ h1)
    · rcases List.mem_cons.mp h with h1 | h1
      · refine Or.inr ?_
        rw [h1]
        exact List.mem_cons_self _ _
      · rcases ih h1 with h2 | h2
        · exact Or.inl h2
        · exact Or.inr (List.mem_cons_of_mem _ h2)

theorem key_mem_setKey (m : List (String × Nat)) (k : String) (v : Nat) :
    k ∈ (setKey m k v).map Prod.fst := by
  induction m with
  | nil => simp [setKey]
  | cons q rest ih =>
    obtain ⟨k0, v0⟩ := q
    simp only [setKey]
    split
    · simp
    · simp only [List.map_cons, List.mem_cons]
      exact Or.inr ih

theorem keys_setKey_mono {k0 : String} (k : String) (v : Nat) :
    ∀ {m : List (String × Nat)}, k0 ∈ m.map Prod.fst → k0 ∈ (setKey m k v).map Prod.fst := by
  intro m
  induction m with
  | nil => intro h; cases h
  | cons q rest ih =>
    obtain ⟨k1, v1⟩ := q
    intro h
    simp only [List.map_cons, List.mem_cons] at h
    simp only [setKey]
    split
    · rename_i h1
      rcases h with h | h
      · simp only [List.map_cons, List.mem_cons]
        exact Or.inl (by rw [h, h1])
      · simp only [List.map_cons, List.mem_cons]
        exact Or.inr h
    · rcases h with h | h
      · simp only [List.map_cons, List.mem_cons]
        exact Or.inl h
      · simp only [List.map_cons, List.mem_cons]
        exact Or.inr (ih h)

theorem sum_setKey_inc (m : List (String × Nat)) (k : String) :
    ((setKey m k (lookupD m k 0 + 1)).map Prod.snd).sum = (m.map Prod.snd).sum + 1 := by
  induction m with
  | nil => simp [setKey, lookupD]
  | cons q rest ih =>
    obtain ⟨k0, v0⟩ := q
    by_cases h0 : k0 = k
    · subst h0
      simp [setKey, lookupD]
      omega
    · simp only [lookupD, if_neg h0, setKey, List.map_cons, List.sum_cons, ih]
      omega

theorem tally_sum (l : List Article) :
    ∀ m : List (String × Nat),
      ((tally m l).map Prod.snd).sum = (m.map Prod.snd).sum + l.length := by
  induction l with
  | nil => intro m; simp [tally]
  | cons a l ih =>
    intro m
    show ((tally (setKey m (getSentiment a) (lookupD m (getSentiment a) 0 + 1)) l).map
        Prod.snd).sum = _
    rw [ih, sum_setKey_inc]
    simp only [List.length_cons]
    omega

theorem tally_lookupD (l : List Article) (k : String) :
    ∀ m : List (String × Nat),
      lookupD (tally m l) k 0 =
        lookupD m k 0 + (l.filter (fun a => decide (getSentiment a = k))).length := by
  induction l with
  | nil => intro m; simp [tally]
  | cons a l ih =>
    intro m
    show lookupD (tally (setKey m (getSentiment a) (lookupD m (getSentiment a) 0 + 1)) l) k 0 = _
    rw [ih]
    by_cases h : getSentiment a = k
    · subst h
      rw [lookupD_setKey_self]
      simp only [List.filter_cons, decide_True, if_true, List.length_cons]
      omega
    · rw [lookupD_setKey_ne _ _ h]
      simp only [List.filter_cons, h, decide_False, if_false]
      simp

theorem tally_mem (l : List Article) {p : String × Nat} :
    ∀ m : List (String × Nat), p ∈ tally m l →
      (p ∈ m ∨ ∃ a ∈ l, getSentiment a = p.1) ∧
      ((∀ q ∈ m, 0 < q.2) → 0 < p.2) := by
  induction l with
  | nil =>
    intro m hp
    exact ⟨Or.inl hp, fun h => h p hp⟩
  | cons a l ih =>
    intro m hp
    have hstep := ih (setKey m (getSentiment a) (lookupD m (getSentiment a) 0 + 1)) hp
    constructor
    · rcases hstep.1 with hm | ⟨b, hb, hgb⟩
      · rcases mem_setKey hm with rfl | hm
        · exact Or.inr ⟨a, List.mem_cons_self _ _, rfl⟩
        · exact Or.inl hm
      · exact Or.inr ⟨b, List.mem_cons_of_mem _ hb, hgb⟩
    · intro hpos
      apply hstep.2
      intro q hq
      rcases mem_setKey hq with rfl | hq
      · simp
      · exact hpos q hq

theorem tally_keys_mono (l : List Article) {k : String} :
    ∀ m : List (String × Nat), k ∈ m.map Prod.fst → k ∈ (tally m l).map Prod.fst := by
  induction l with
  | nil => intro m h; exact h
  | cons a l ih =>
    intro m h
    exact ih _ (keys_setKey_mono _ _ h)

theorem tally_key_of_mem {l : List Article} {a : Article} (ha : a ∈ l) :
    ∀ m : List (String × Nat), getSentiment a ∈ (tally m l).map Prod.fst := by
  induction l with
  | nil => cases ha
  | cons b l ih =>
    intro m
    rcases List.mem_cons.mp ha with rfl | ha
    · exact tally_keys_mono l _ (key_mem_setKey m _ _)
    · exact ih ha _

theorem tally_ne_nil {l : List Article} (h : l ≠ []) (m : List (String × Nat)) :
    tally m l ≠ [] := by
  intro h0
  have hs := tally_sum l m
  rw [h0] at hs
  simp only [List.map_nil, List.sum_nil] at hs
  have : l.length ≠ 0 := fun hl => h (List.length_eq_zero.mp hl)
  omega

/-! ### `maxByValue` picks a key of maximal count -/

theorem foldl_max_spec (l : List (String × Nat)) :
    ∀ b : String × Nat,
      (l.foldl (fun best q => if best.2 < q.2 then q else best) b ∈ b :: l) ∧
      ∀ q ∈ b :: l, q.2 ≤ (l.foldl (fun best q => if best.2 < q.2 then q else best) b).2 := by
  induction l with
  | nil =>
    intro b
    refine ⟨List.mem_cons_self _ _, ?_⟩
    intro q hq
    rcases List.mem_singleton.mp hq with rfl
    exact Nat.le_refl _
  | cons p l ih =>
    intro b
    simp only [List.foldl_cons]
    have hstep := ih (if b.2 < p.2 then p else b)
    constructor
    · rcases List.mem_cons.mp hstep.1 with h | h
      · rw [h]
        split
        · exact List.mem_cons_of_mem _ (List.mem_cons_self _ _)
        · exact List.mem_cons_self _ _
      · exact List.mem_cons_of_mem _ (List.mem_cons_of_mem _ h)
    · intro q hq
      rcases List.mem_cons.mp hq with rfl | hq
      · refine Nat.le_trans ?_ (hstep.2 _ (List.mem_cons_self _ _))
        split
        · rename_i hlt; exact Nat.le_of_lt hlt
        · exact Nat.le_refl _
      · rcases List.mem_cons.mp hq with rfl | hq
        · refine Nat.le_trans ?_ (hstep.2 _ (List.mem_cons_self _ _))
          split
          · exact Nat.le_refl _
          · rename_i hlt; exact Nat.le_of_not_lt hlt
        · exact hstep.2 _ (List.mem_cons_of_mem _ hq)

theorem maxByValue_spec {m : List (String × Nat)} (h : m ≠ []) :
    ∃ p ∈ m, p.1 = maxByValue m ∧ ∀ q ∈ m, q.2 ≤ p.2 := by
  match m, h with
  | p :: rest, _ =>
    have hspec := foldl_max_spec rest p
    refine ⟨rest.foldl (fun best q => if best.2 < q.2 then q else best) p, hspec.1, ?_, hspec.2⟩
    simp [maxByValue]

/-! ### Bridge lemmas: characterizing the pipeline's intermediate values -/

theorem analysis_dist_of_ne {articles : List Article} (h : articles ≠ []) :
    (comparative_analysis articles).1.sentiment_distribution = tally [] articles := by
  simp [comparative_analysis, h, sentimentCountsOf]

theorem analysis_overlap_of_ne {articles : List Article} (h : articles ≠ []) :
    (comparative_analysis articles).1.topic_overlap =
      TopicOverlapVal.record (commonTopicsOf articles) (allTopicsOf articles)
        (topicFrequencyOf articles) := by
  simp [comparative_analysis, h]

theorem analysis_cov_of_ne {articles : List Article} (h : articles ≠ []) :
    (comparative_analysis articles).1.coverage_differences = coverageDifferencesOf articles := by
  simp [comparative_analysis, h]

theorem articleTopicsOf_eq (articles : List Article) :
    articleTopicsOf articles = articles.map (fun a => extract_topics (combinedText a)) := by
  unfold articleTopicsOf articles2Of
  rw [List.map_map]
  rfl

theorem mem_allTopicsOf {articles : List Article} {t : String} :
    t ∈ allTopicsOf articles ↔ ∃ a ∈ articles, t ∈ extract_topics (combinedText a) := by
  unfold allTopicsOf
  rw [mem_foldl_unionUpd, articleTopicsOf_eq]
  constructor
  · rintro (h0 | ⟨ts, hts, ht⟩)
    · cases h0
    · rcases List.mem_map.mp hts with ⟨a, ha, rfl⟩
      exact ⟨a, ha, ht⟩
  · rintro ⟨a, ha, ht⟩
    exact Or.inr ⟨_, List.mem_map_of_mem _ ha, ht⟩

theorem nodup_allTopicsOf (articles : List Article) : (allTopicsOf articles).Nodup :=
  nodup_foldl_unionUpd List.nodup_nil

theorem mem_commonTopicsOf {articles : List Article} {t : String} :
    t ∈ commonTopicsOf articles ↔
      t ∈ allTopicsOf articles ∧ ∀ a ∈ articles, t ∈ extract_topics (combinedText a) := by
  unfold commonTopicsOf
  rw [mem_foldl_interFilter, articleTopicsOf_eq]
  constructor
  · rintro ⟨h1, h2⟩
    exact ⟨h1, fun a ha => h2 _ (List.mem_map_of_mem _ ha)⟩
  · rintro ⟨h1, h2⟩
    refine ⟨h1, ?_⟩
    intro ts hts
    rcases List.mem_map.mp hts with ⟨a, ha, rfl⟩
    exact h2 a ha

theorem lookupPairs_map_nodup {al : List String} (g : String → Nat) (hnd : al.Nodup)
    {t : String} (ht : t ∈ al) :
    lookupPairs (al.map (fun u => (u, g u))) t = some (g t) := by
  induction al with
  | nil => cases ht
  | cons u rest ih =>
    have hnd2 := List.nodup_cons.mp hnd
    rcases List.mem_cons.mp ht with rfl | ht2
    · simp [lookupPairs]
    · have hut : u ≠ t := fun h => hnd2.1 (h ▸ ht2)
      simp only [List.map_cons, lookupPairs, if_neg hut]
      exact ih hnd2.2 ht2

theorem freq_count_eq (articles : List Article) (t : String) :
    ((articleTopicsOf articles).filter (fun ts => decide (t ∈ ts))).length =
      (articles.filter (fun a => decide (t ∈ extract_topics (combinedText a)))).length := by
  rw [articleTopicsOf_eq, List.filter_map, List.length_map]
  rfl

theorem posArticlesOf_eq (articles : List Article) :
    posArticlesOf articles =
      (articles.filter (fun a => decide (a.sentiment = some "Positive"))).map mutTopics := by
  unfold posArticlesOf articles2Of
  rw [List.filter_map]
  rfl

theorem negArticlesOf_eq (articles : List Article) :
    negArticlesOf articles =
      (articles.filter (fun a => decide (a.sentiment = some "Negative"))).map mutTopics := by
  unfold negArticlesOf articles2Of
  rw [List.filter_map]
  rfl

theorem mem_posTopicsOf {articles : List Article} {t : String} :
    t ∈ posTopicsOf articles ↔
      ∃ a ∈ articles, a.sentiment = some "Positive" ∧ t ∈ extract_topics (combinedText a) := by
  unfold posTopicsOf
  rw [mem_foldl_unionUpd_map (fun a : Article => a.topics.getD []), posArticlesOf_eq]
  constructor
  · rintro (h0 | ⟨a', ha', ht⟩)
    · cases h0
    · rcases List.mem_map.mp ha' with ⟨a, ha, rfl⟩
      have ham := List.mem_filter.mp ha
      exact ⟨a, ham.1, by simpa using ham.2, ht⟩
  · rintro ⟨a, ha, hsent, ht⟩
    exact Or.inr ⟨mutTopics a,
      List.mem_map_of_mem _ (List.mem_filter.mpr ⟨ha, by simpa using hsent⟩), ht⟩

theorem mem_negTopicsOf {articles : List Article} {t : String} :
    t ∈ negTopicsOf articles ↔
      ∃ a ∈ articles, a.sentiment = some "Negative" ∧ t ∈ extract_topics (combinedText a) := by
  unfold negTopicsOf
  rw [mem_foldl_unionUpd_map (fun a : Article => a.topics.getD []), negArticlesOf_eq]
  constructor
  · rintro (h0 | ⟨a', ha', ht⟩)
    · cases h0
    · rcases List.mem_map.mp ha' with ⟨a, ha, rfl⟩
      have ham := List.mem_filter.mp ha
      exact ⟨a, ham.1, by simpa using ham.2, ht⟩
  · rintro ⟨a, ha, hsent, ht⟩
    exact Or.inr ⟨mutTopics a,
      List.mem_map_of_mem _ (List.mem_filter.mpr ⟨ha, by simpa using hsent⟩), ht⟩

theorem mem_posUniqueOf {articles : List Article} {t : String} :
    t ∈ posUniqueOf articles ↔ t ∈ posTopicsOf articles ∧ t ∉ negTopicsOf articles := by
  unfold posUniqueOf
  simp [List.mem_filter]

theorem mem_negUniqueOf {articles : List Article} {t : String} :
    t ∈ negUniqueOf articles ↔ t ∈ negTopicsOf articles ∧ t ∉ posTopicsOf articles := by
  unfold negUniqueOf
  simp [List.mem_filter]

theorem sentiments_two_iff {articles : List Article} :
    2 ≤ (sentimentsOf articles).length ↔
      ∃ a ∈ articles, ∃ b ∈ articles, getSentiment a ≠ getSentiment b := by
  constructor
  · intro h
    have hnd : (sentimentsOf articles).Nodup :=
      nodup_foldl_insertNew getSentiment List.nodup_nil
    rcases exists_two_of_nodup_two_le hnd h with ⟨x, hx, y, hy, hxy⟩
    rcases (mem_foldl_insertNew getSentiment).mp hx with hx0 | ⟨a, ha, hga⟩
    · cases hx0
    rcases (mem_foldl_insertNew getSentiment).mp hy with hy0 | ⟨b, hb, hgb⟩
    · cases hy0
    exact ⟨a, ha, b, hb, by rw [hga, hgb]; exact hxy⟩
  · rintro ⟨a, ha, b, hb, hab⟩
    have hxa : getSentiment a ∈ sentimentsOf articles :=
      (mem_foldl_insertNew getSentiment).mpr (Or.inr ⟨a, ha, rfl⟩)
    have hxb : getSentiment b ∈ sentimentsOf articles :=
      (mem_foldl_insertNew getSentiment).mpr (Or.inr ⟨b, hb, rfl⟩)
    exact two_le_length_of_two_mem hxa hxb hab

/-! ### Claim theorems: the topic classifier -/

/-- C8: `extract_topics` is total and never fails: it always returns a
non-empty topic list; the result is exactly `["General"]` precisely when no
keyword of any topic occurs as a substring of the lower-cased text; and
whitespace-only (in particular empty) text always yields `["General"]`. -/
theorem extract_topics_total_general (text : String) :
    extract_topics text ≠ [] ∧
    (extract_topics text = ["General"] ↔
      ∀ p ∈ topic_keywords, ∀ kw ∈ p.2, strIn kw (pyLower text) = false) ∧
    ((∀ c ∈ text.data, c.isWhitespace = true) → extract_topics text = ["General"]) := by
  have hiff : extract_topics text = ["General"] ↔
      ∀ p ∈ topic_keywords, ∀ kw ∈ p.2, strIn kw (pyLower text) = false := by
    rw [extract_topics_eq]
    constructor
    · intro h
      by_cases hF :
          (topic_keywords.filter (fun p => p.2.any (fun kw => strIn kw (pyLower text)))).map
            Prod.fst = []
      · have hfil := List.map_eq_nil_iff.mp hF
        intro p hp kw hkw
        have hnp := List.filter_eq_nil_iff.mp hfil p hp
        cases hb : strIn kw (pyLower text) with
        | false => rfl
        | true =>
          exact absurd (List.any_eq_true.mpr ⟨kw, hkw, hb⟩) (by simpa using hnp)
      · rw [if_neg hF] at h
        exfalso
        have hmem : "General" ∈
            (topic_keywords.filter
              (fun p => p.2.any (fun kw => strIn kw (pyLower text)))).map Prod.fst := by
          rw [h]; exact List.mem_cons_self _ _
        rcases List.mem_map.mp hmem with ⟨p, hp, hfst⟩
        have hpk : p ∈ topic_keywords := List.mem_of_mem_filter hp
        exact general_not_key (List.mem_map.mpr ⟨p, hpk, hfst⟩)
    · intro h
      have hfil : topic_keywords.filter
          (fun p => p.2.any (fun kw => strIn kw (pyLower text))) = [] := by
        apply List.filter_eq_nil_iff.mpr
        intro p hp
        simp only [Bool.not_eq_true, List.any_eq_false]
        intro kw hkw
        simpa using h p hp kw hkw
      rw [hfil]
      simp
  refine ⟨?_, hiff, ?_⟩
  · rw [extract_topics_eq]
    split
    · simp
    · rename_i h; exact h
  · intro hws
    apply hiff.mpr
    intro p hp kw hkw
    exact strIn_whitespace_false kw text hws (keywords_not_whitespace p hp kw hkw)

/-- C10: the keywords "AI" and "EV" appear verbatim in the table for
Technology and Automotive, yet they contain upper-case letters while the
text is lower-cased before matching, so they can never match any input; in
particular the texts "AI" and "EV", which contain a listed keyword
verbatim, are classified as `["General"]`. -/
theorem uppercase_keywords_never_match :
    (∃ p ∈ topic_keywords, p.1 = "Technology" ∧ "AI" ∈ p.2) ∧
    (∃ p ∈ topic_keywords, p.1 = "Automotive" ∧ "EV" ∈ p.2) ∧
    (∀ s : String, strIn "AI" (pyLower s) = false ∧ strIn "EV" (pyLower s) = false) ∧
    extract_topics "AI" = ["General"] ∧ extract_topics "EV" = ["General"] := by
  refine ⟨by decide, by decide, ?_, by decide, by decide⟩
  intro s
  constructor
  · exact strIn_upper_false "AI" s 'A' (by decide) (by decide) (by decide)
  · exact strIn_upper_false "EV" s 'E' (by decide) (by decide) (by decide)

/-! ### Claim theorems: the comparative analysis engine -/

/-- C1 counterexample: on the empty list the code does NOT return a
topic-overlap record carrying empty `common_topics`, `all_topics` and
`topic_frequency` entries; the dict it returns under `"topic_overlap"` is
the literal empty mapping `{}`, which has no such keys at all. -/
theorem empty_analysis_claim_false :
    ¬ ((comparative_analysis []).1 =
        ⟨[], TopicOverlapVal.record [] [] [], []⟩) := by decide

/-- C1 (amended): for the empty article list `comparative_analysis`
short-circuits (the emptiness test is the first thing it does) and returns
exactly the degenerate result with an empty sentiment distribution, the
EMPTY topic-overlap mapping (no keys), and no coverage differences. -/
theorem empty_analysis_degenerate :
    comparative_analysis [] = (⟨[], TopicOverlapVal.emptyDict, []⟩, []) := rfl

/-- C2 counterexample: the engine is not free of effects on its input: it
overwrites each article's `topics` key, so the article list after the call
differs from the input list. -/
theorem analysis_mutates_input :
    (comparative_analysis [artPosStock]).2 ≠ [artPosStock] := by decide

/-- C2 (amended): `comparative_analysis` is a pure function of the article
list, but it does not leave the input records unchanged: each record's
`topics` field is overwritten with the freshly recomputed topic set, while
every other field (title, summary, source, link, date, sentiment) is left
untouched. -/
theorem analysis_updates_only_topics (articles : List Article) :
    (comparative_analysis articles).2 = articles.map mutTopics ∧
    ∀ a ∈ (comparative_analysis articles).2, ∃ b ∈ articles,
      a.title = b.title ∧ a.summary = b.summary ∧ a.source = b.source ∧
      a.link = b.link ∧ a.date = b.date ∧ a.sentiment = b.sentiment ∧
      a.topics = some (extract_topics (combinedText b)) := by
  have h2 : (comparative_analysis articles).2 = articles.map mutTopics := by
    by_cases h : articles = []
    · subst h; rfl
    · simp [comparative_analysis, h, articles2Of]
  refine ⟨h2, ?_⟩
  intro a ha
  rw [h2] at ha
  rcases List.mem_map.mp ha with ⟨b, hb, rfl⟩
  exact ⟨b, hb, rfl, rfl, rfl, rfl, rfl, rfl, rfl⟩

/-- C3: the sentiment distribution sums to the number of input articles,
every count is positive, and every key is a sentiment label actually
observed on some article (with a missing sentiment read as "Unknown"). -/
theorem sentiment_distribution_sums (articles : List Article) :
    (((comparative_analysis articles).1.sentiment_distribution).map Prod.snd).sum
        = articles.length ∧
    ∀ p ∈ (comparative_analysis articles).1.sentiment_distribution,
      0 < p.2 ∧ ∃ a ∈ articles, getSentiment a = p.1 := by
  by_cases h : articles = []
  · subst h
    exact ⟨rfl, by intro p hp; cases hp⟩
  · rw [analysis_dist_of_ne h]
    constructor
    · rw [tally_sum]
      simp
    · intro p hp
      have hm := tally_mem articles [] hp
      constructor
      · exact hm.2 (by intro q hq; cases hq)
      · rcases hm.1 with hq | h2
        · cases hq
        · exact h2

/-- C4: in any topic-overlap record the engine produces, every key of the
topic-frequency mapping belongs to `all_topics`, and `common_topics` is a
subset of `all_topics`. -/
theorem topic_overlap_invariants (articles : List Article) (c al : List String)
    (tf : List (String × Nat))
    (h : (comparative_analysis articles).1.topic_overlap = TopicOverlapVal.record c al tf) :
    (∀ p ∈ tf, p.1 ∈ al) ∧ ∀ t ∈ c, t ∈ al := by
  by_cases hn : articles = []
  · subst hn
    simp [comparative_analysis] at h
  · rw [analysis_overlap_of_ne hn] at h
    injection h with h1 h2 h3
    subst h1; subst h2; subst h3
    constructor
    · intro p hp
      rcases List.mem_map.mp hp with ⟨t, ht, rfl⟩
      exact ht
    · intro t ht
      exact (mem_foldl_interFilter.mp ht).1

theorem topic_overlap_invariants_witness :
    (∀ p ∈ [("Finance", 1)], p.1 ∈ ["Finance"]) ∧
    (∀ t ∈ ["Finance"], t ∈ ["Finance"]) :=
  topic_overlap_invariants [artPosStock] ["Finance"] ["Finance"] [("Finance", 1)] (by decide)

/-- C5: for a non-empty article list the topic overlap is a record in which
`all_topics` is exactly the union of the per-article topic sets re-derived
by `extract_topics` from each article's title and summary (pre-attached
topics are ignored: the quantification ranges over articles with arbitrary
`topics` fields), `common_topics` is exactly their intersection, and the
frequency mapping sends each topic in `all_topics` to the number of
articles whose derived topic set contains it. -/
theorem topic_overlap_characterization (articles : List Article) (h : articles ≠ []) :
    ∃ c al tf,
      (comparative_analysis articles).1.topic_overlap = TopicOverlapVal.record c al tf ∧
      (∀ t, t ∈ al ↔ ∃ a ∈ articles, t ∈ extract_topics (combinedText a)) ∧
      (∀ t, t ∈ c ↔ ∀ a ∈ articles, t ∈ extract_topics (combinedText a)) ∧
      ∀ t ∈ al, lookupPairs tf t =
        some ((articles.filter
          (fun a => decide (t ∈ extract_topics (combinedText a)))).length) := by
  refine ⟨commonTopicsOf articles, allTopicsOf articles, topicFrequencyOf articles,
    analysis_overlap_of_ne h, ?_, ?_, ?_⟩
  · intro t
    exact mem_allTopicsOf
  · intro t
    rw [mem_commonTopicsOf]
    constructor
    · rintro ⟨_, h2⟩
      exact h2
    · intro h2
      refine ⟨?_, h2⟩
      obtain ⟨a, ha⟩ := List.exists_mem_of_ne_nil articles h
      exact mem_allTopicsOf.mpr ⟨a, ha, h2 a ha⟩
  · intro t ht
    unfold topicFrequencyOf
    rw [lookupPairs_map_nodup _ (nodup_allTopicsOf articles) ht, freq_count_eq]

theorem topic_overlap_characterization_witness :
    ∃ c al tf,
      (comparative_analysis [artNegCar]).1.topic_overlap = TopicOverlapVal.record c al tf ∧
      (∀ t, t ∈ al ↔ ∃ a ∈ [artNegCar], t ∈ extract_topics (combinedText a)) ∧
      (∀ t, t ∈ c ↔ ∀ a ∈ [artNegCar], t ∈ extract_topics (combinedText a)) ∧
      ∀ t ∈ al, lookupPairs tf t =
        some (([artNegCar].filter
          (fun a => decide (t ∈ extract_topics (combinedText a)))).length) :=
  topic_overlap_characterization [artNegCar] (by decide)

/-- C6: the coverage-differences list is non-empty exactly when there are
at least two articles and at least two distinct sentiment labels among
them; with one article, or with all articles sharing one label, it is
empty. -/
theorem coverage_differences_gate (articles : List Article) :
    (comparative_analysis articles).1.coverage_differences ≠ [] ↔
      2 ≤ articles.length ∧
        ∃ a ∈ articles, ∃ b ∈ articles, getSentiment a ≠ getSentiment b := by
  by_cases h : articles = []
  · subst h
    constructor
    · intro h0
      exact absurd rfl h0
    · rintro ⟨hl, _⟩
      simp at hl
  · rw [analysis_cov_of_ne h]
    unfold coverageDifferencesOf
    by_cases h2 : 2 ≤ articles.length
    · rw [if_pos h2]
      by_cases h3 : 2 ≤ (sentimentsOf articles).length
      · rw [if_pos h3]
        constructor
        · intro _
          exact ⟨h2, sentiments_two_iff.mp h3⟩
        · intro _
          have ht : trendComparisons articles ≠ [] := by
            have hcnt : sentimentCountsOf articles ≠ [] := tally_ne_nil h []
            unfold trendComparisons
            rw [if_neg hcnt]
            simp
          intro h0
          exact ht (List.append_eq_nil.mp h0).2
      · rw [if_neg h3]
        constructor
        · intro h0
          exact absurd rfl h0
        · rintro ⟨_, hp⟩
          exact absurd (sentiments_two_iff.mpr hp) h3
    · rw [if_neg h2]
      constructor
      · intro h0
        exact absurd rfl h0
      · rintro ⟨hl, _⟩
        exact absurd hl h2

/-- C7: whenever both a Positive article and a Negative article are
present, the engine emits exactly two coverage comparisons: the first
contrasts the topics unique to the Positive subset against those unique to
the Negative subset (falling back to the phrase "various topics" for an
empty difference) with a fixed impact sentence, and the second names a
dominant sentiment label, one of maximal count in the distribution. -/
theorem coverage_pos_neg (articles : List Article)
    (hp : articles.filter (fun a => decide (a.sentiment = some "Positive")) ≠ [])
    (hn : articles.filter (fun a => decide (a.sentiment = some "Negative")) ≠ []) :
    ∃ c1 c2, (comparative_analysis articles).1.coverage_differences = [c1, c2] ∧
      c1.impact = "This contrast shows different aspects of the company\x27s public perception." ∧
      (∃ pu nu,
        c1.comparison = "Positive articles focus on " ++
          (if pu = [] then "various topics" else String.intercalate ", " pu) ++
          ", while negative articles focus on " ++
          (if nu = [] then "various topics" else String.intercalate ", " nu) ++ "." ∧
        (∀ t, t ∈ pu ↔
          (∃ a ∈ articles, a.sentiment = some "Positive" ∧
            t ∈ extract_topics (combinedText a)) ∧
          ¬ ∃ a ∈ articles, a.sentiment = some "Negative" ∧
            t ∈ extract_topics (combinedText a)) ∧
        (∀ t, t ∈ nu ↔
          (∃ a ∈ articles, a.sentiment = some "Negative" ∧
            t ∈ extract_topics (combinedText a)) ∧
          ¬ ∃ a ∈ articles, a.sentiment = some "Positive" ∧
            t ∈ extract_topics (combinedText a))) ∧
      ∃ d, (∃ p ∈ (comparative_analysis articles).1.sentiment_distribution,
              p.1 = d ∧ ∀ q ∈ (comparative_analysis articles).1.sentiment_distribution,
                q.2 ≤ p.2) ∧
        c2.comparison = "Overall coverage is predominantly " ++ pyLower d ++ "." := by
  obtain ⟨a, haf⟩ := List.exists_mem_of_ne_nil _ hp
  obtain ⟨b, hbf⟩ := List.exists_mem_of_ne_nil _ hn
  have ha := List.mem_filter.mp haf
  have hb := List.mem_filter.mp hbf
  have hasent : a.sentiment = some "Positive" := by simpa using ha.2
  have hbsent : b.sentiment = some "Negative" := by simpa using hb.2
  have hne : articles ≠ [] := List.ne_nil_of_mem ha.1
  have hgsa : getSentiment a = "Positive" := by
    unfold getSentiment; rw [hasent]; rfl
  have hgsb : getSentiment b = "Negative" := by
    unfold getSentiment; rw [hbsent]; rfl
  have hab : a ≠ b := by
    intro heq
    rw [heq, hbsent] at hasent
    simp at hasent
  have h2 : 2 ≤ articles.length := two_le_length_of_two_mem ha.1 hb.1 hab
  have h3 : 2 ≤ (sentimentsOf articles).length := by
    apply sentiments_two_iff.mpr
    exact ⟨a, ha.1, b, hb.1, by rw [hgsa, hgsb]; decide⟩
  have hpos : posArticlesOf articles ≠ [] := by
    rw [posArticlesOf_eq]
    intro h0
    exact hp (List.map_eq_nil_iff.mp h0)
  have hneg : negArticlesOf articles ≠ [] := by
    rw [negArticlesOf_eq]
    intro h0
    exact hn (List.map_eq_nil_iff.mp h0)
  have hcov : (comparative_analysis articles).1.coverage_differences =
      contrastComparisons articles ++ trendComparisons articles := by
    rw [analysis_cov_of_ne hne]
    unfold coverageDifferencesOf
    rw [if_pos h2, if_pos h3]
  have hcon : contrastComparisons articles =
      [⟨"Positive articles focus on " ++
          (if posUniqueOf articles = [] then "various topics"
           else String.intercalate ", " (posUniqueOf articles)) ++
        ", while negative articles focus on " ++
          (if negUniqueOf articles = [] then "various topics"
           else String.intercalate ", " (negUniqueOf articles)) ++ ".",
        "This contrast shows different aspects of the company\x27s public perception."⟩] := by
    unfold contrastComparisons
    rw [if_pos ⟨hpos, hneg⟩]
  have hcnt : sentimentCountsOf articles ≠ [] := tally_ne_nil hne []
  have htrend : trendComparisons articles =
      [⟨"Overall coverage is predominantly " ++
          pyLower (maxByValue (sentimentCountsOf articles)) ++ ".",
        "The " ++ pyLower (maxByValue (sentimentCountsOf articles)) ++
          " sentiment suggests " ++
          (if maxByValue (sentimentCountsOf articles) = "Positive" then
            "a positive public perception"
           else if maxByValue (sentimentCountsOf articles) = "Negative" then
            "a negative public perception"
           else "a balanced public perception") ++ "."⟩] := by
    unfold trendComparisons
    rw [if_neg hcnt]
  refine ⟨_, _, by rw [hcov, hcon, htrend]; rfl, rfl, ?_, ?_⟩
  · refine ⟨posUniqueOf articles, negUniqueOf articles, rfl, ?_, ?_⟩
    · intro t
      rw [mem_posUniqueOf, mem_posTopicsOf, mem_negTopicsOf]
    · intro t
      rw [mem_negUniqueOf, mem_negTopicsOf, mem_posTopicsOf]
  · refine ⟨maxByValue (sentimentCountsOf articles), ?_, rfl⟩
    obtain ⟨p, hpm, hp1, hmax⟩ := maxByValue_spec hcnt
    rw [analysis_dist_of_ne hne]
    exact ⟨p, hpm, hp1, hmax⟩

theorem coverage_pos_neg_witness :
    (comparative_analysis [artPosStock, artNegCar]).1.coverage_differences.length = 2 := by
  obtain ⟨c1, c2, hcov, _⟩ :=
    coverage_pos_neg [artPosStock, artNegCar] (by decide) (by decide)
  rw [hcov]
  rfl

/-- C9: an article whose sentiment field is missing is tallied under the
label "Unknown": the count stored for "Unknown" equals the number of
articles whose (defaulted) sentiment is "Unknown", and it is positive, so
the malformed record is counted rather than dropped and no failure
occurs. -/
theorem missing_sentiment_counted_unknown (articles : List Article) (a : Article)
    (ha : a ∈ articles) (hs : a.sentiment = none) :
    lookupD ((comparative_analysis articles).1.sentiment_distribution) "Unknown" 0 =
      (articles.filter (fun x => decide (getSentiment x = "Unknown"))).length ∧
    0 < lookupD ((comparative_analysis articles).1.sentiment_distribution) "Unknown" 0 := by
  have hne : articles ≠ [] := List.ne_nil_of_mem ha
  rw [analysis_dist_of_ne hne]
  have hl := tally_lookupD articles "Unknown" []
  simp only [lookupD, Nat.zero_add] at hl
  refine ⟨hl, ?_⟩
  rw [hl]
  apply List.length_pos.mpr
  apply List.ne_nil_of_mem (a := a)
  apply List.mem_filter.mpr
  refine ⟨ha, ?_⟩
  unfold getSentiment
  rw [hs]
  decide

theorem missing_sentiment_counted_unknown_witness :
    lookupD ((comparative_analysis [artBare]).1.sentiment_distribution) "Unknown" 0 =
      ([artBare].filter (fun x => decide (getSentiment x = "Unknown"))).length ∧
    0 < lookupD ((comparative_analysis [artBare]).1.sentiment_distribution) "Unknown" 0 :=
  missing_sentiment_counted_unknown [artBare] artBare (List.mem_singleton.mpr rfl) rfl

end CompanyInsight
